import Mathlib

/-!
Verification development for the pyxll market-data add-in.

Shallow embedding of the core subsystems:
* `subscription_manager.py` — per-worksheet subscription reconciliation against
  a global reference-counted table (`SubscriptionManager.update_subscriptions_for_sheet`,
  `is_valid_config`).
* `utils/formatting.py` — the quantity normalizer `get_valid_quantity`.
* `websocket_event_listener.py` — inference-message intake (`handle_received_message`)
  and the array-reversal rule of the flush path (`update_excel_for_sheet`).
* `websocket_handler.py` — the reconnect-forever loop of `WebSocketHandler.connect`.

Python dictionaries are embedded as insertion-ordered association lists,
Python lists as Lean lists, numbers as `Int`/`Rat`, and the external
FIGI-resolution service as an explicit function parameter.
-/

namespace Pyxll

/-! ## Python string primitives

Python's `str.strip`, `str.upper`, `str.lower` (ASCII range, which is all the
code's vocabulary uses), implemented over the character list so that they
compute inside the kernel. -/

/-- Python `str.strip()`: remove leading and trailing whitespace. -/
def pyStrip (s : String) : String :=
  ⟨((s.data.dropWhile Char.isWhitespace).reverse.dropWhile Char.isWhitespace).reverse⟩

/-- Python `str.upper()`. -/
def pyUpper (s : String) : String := ⟨s.data.map Char.toUpper⟩

/-- Python `str.lower()`. -/
def pyLower (s : String) : String := ⟨s.data.map Char.toLower⟩

/-! ## Subscription data model (`subscription_manager.py`) -/

/-- A subscription key `(figi, quantity, rfq_label, side, ats)` as built at
`subscription_manager.py:199-200`.  All fields are already normalized by the
row-processing code (figi and ats upper-case, rfq_label and side lower-case,
quantity an integer). -/
structure SubKey where
  figi : String
  quantity : Int
  rfq_label : String
  side : String
  ats : String
deriving DecidableEq, Repr

/-- One value of `SubscriptionManager.current_subscriptions`: the subscription
payload together with the list of worksheet names that reference it
(`subscription_manager.py:50-59`).  The payload fields
`figi/quantity/rfq_label/side/ats_indicator` coincide with the key fields
(`subscription_manager.py:199-208`), so the payload is stored as a `SubKey`;
the constant `"subscribe": True` field carries no information. -/
structure SubRecord where
  subscription : SubKey
  worksheets : List String
deriving DecidableEq, Repr

/-- The global table `SubscriptionManager.current_subscriptions`, a Python dict
embedded as an insertion-ordered association list with (in reachable states)
pairwise-distinct keys. -/
abbrev SubTable := List (SubKey × SubRecord)

/-- Dict lookup: first entry with the given key. -/
def lookupKey (k : SubKey) : SubTable → Option SubRecord
  | [] => none
  | (k1, r1) :: rest => if k1 = k then some r1 else lookupKey k rest

/-- Dict value assignment for a key that is already present: replace the first
entry with the given key, keeping its position. -/
def setKey (k : SubKey) (r : SubRecord) : SubTable → SubTable
  | [] => []
  | (k1, r1) :: rest => if k1 = k then (k, r) :: rest else (k1, r1) :: setKey k r rest

/-- The keys of the table, in order. -/
def keysOf (t : SubTable) : List SubKey := t.map Prod.fst

/-- The `worksheets` list a key currently has in the table (`[]` when the key
is absent). -/
def viewsOf (k : SubKey) (t : SubTable) : List String :=
  match lookupKey k t with
  | some r => r.worksheets
  | none => []

/-- Phase 1 of `update_subscriptions_for_sheet`
(`subscription_manager.py:218-228`): merge this worksheet's new subscription
keys into the global table.  A key already present gains `ws` in its
`worksheets` list when absent; a new key is inserted with `worksheets = [ws]`
and its payload is appended to the subscribe batch.  Returns the updated table
and the subscribe batch (each message identified by its key fields, since the
payload is determined by the key). -/
def mergePhase (ws : String) : List SubKey → SubTable → SubTable × List SubKey
  | [], table => (table, [])
  | k :: rest, table =>
    match lookupKey k table with
    | some r =>
      if ws ∈ r.worksheets then
        mergePhase ws rest table
      else
        mergePhase ws rest (setKey k ⟨r.subscription, r.worksheets ++ [ws]⟩ table)
    | none =>
      let step := mergePhase ws rest (table ++ [(k, ⟨k, [ws]⟩)])
      (step.1, k :: step.2)

/-- Phase 2 of `update_subscriptions_for_sheet`
(`subscription_manager.py:230-242`): for every entry whose `worksheets` list
contains `ws` but whose key is not among the new keys, remove (the first
occurrence of) `ws`; entries whose list becomes empty are deleted from the
table and their payload is appended to the raw unsubscribe batch.  The Python
code defers the `del` to after the loop, which is equivalent for the resulting
dict since keys are distinct. -/
def dropPhase (ws : String) (newKeys : List SubKey) : SubTable → SubTable × List SubKey
  | [] => ([], [])
  | (k, r) :: rest =>
    let step := dropPhase ws newKeys rest
    if ws ∈ r.worksheets ∧ k ∉ newKeys then
      let wl := r.worksheets.erase ws
      if wl = [] then (step.1, k :: step.2)
      else ((k, ⟨r.subscription, wl⟩) :: step.1, step.2)
    else ((k, r) :: step.1, step.2)

/-- Result of one reconcile call: the updated global table, the subscribe
batch handed to `send_subscribe`, and the filtered unsubscribe batch handed to
`send_unsubscribe` (`subscription_manager.py:260-265`). -/
structure ReconcileResult where
  table : SubTable
  subscribeMsgs : List SubKey
  unsubscribeMsgs : List SubKey
deriving DecidableEq, Repr

/-- Core of `SubscriptionManager.update_subscriptions_for_sheet`
(`subscription_manager.py:213-265`), starting from the computed
`new_subscriptions` dict (here: its key list in insertion order) for worksheet
`ws`.  Runs the merge phase, the removal phase, then the cross-filter that
drops from the unsubscribe batch every key that also occurs in this pass's
subscribe batch (`subscription_manager.py:244-258`; the key rebuilt from an
unsubscribe payload equals the table key since `ats_indicator` is always set). -/
def update_subscriptions_for_sheet (ws : String) (newKeys : List SubKey)
    (table : SubTable) : ReconcileResult :=
  let merged := mergePhase ws newKeys table
  let dropped := dropPhase ws newKeys merged.1
  let filtered := dropped.2.filter (fun k => k ∉ merged.2)
  ⟨dropped.1, merged.2, filtered⟩

/-! ## Quantity normalizer (`utils/formatting.py:50-90`) -/

/-- The allowed sizes `ALLOWED_SIZES` of `utils/formatting.py:50-51`, as a
list. -/
def ALLOWED_SIZES : List Int :=
  [1000, 10000, 100000, 250000, 500000, 1000000, 2000000, 3000000, 4000000, 5000000]

/-- A raw cell value as seen by `get_valid_quantity`: either `float(value)`
succeeds and yields a (rational) number, or it raises and the value is
non-numeric (e.g. the string `"abc"`). -/
inductive CellNum where
  | numeric (q : ℚ)
  | nonNumeric
deriving DecidableEq, Repr

/-- Python's `round` on a non-integral number: round half to even
(banker's rounding), as used at `utils/formatting.py:78`. -/
def roundHalfEven (q : ℚ) : Int :=
  let f : Int := ⌊q⌋
  let r : ℚ := q - f
  if r < 1/2 then f
  else if 1/2 < r then f + 1
  else if 2 ∣ f then f else f + 1

/-- The integer obtained at `utils/formatting.py:73-78`: `int(x)` when the
float is integral, otherwise `round(x)`. -/
def coerceToWhole (q : ℚ) : Int :=
  if q.den = 1 then q.num else roundHalfEven q

/-- Python's `min(l, key=lambda x: (abs(x - v), x))` on a non-empty iterable
with incumbent `b`: keep the incumbent unless a strictly smaller
`(|x - v|, x)` key appears. -/
def minBySizeKey (v : Int) (l : List Int) (b : Int) : Int :=
  l.foldl
    (fun best x =>
      if (x - v).natAbs < (best - v).natAbs ∨
         ((x - v).natAbs = (best - v).natAbs ∧ x < best) then x else best)
    b

/-- The lexicographic comparison `(|a - v|, a) ≤ (|x - v|, x)` underlying the
Python `min` key. -/
def sizeKeyLE (v a x : Int) : Prop :=
  (a - v).natAbs < (x - v).natAbs ∨ ((a - v).natAbs = (x - v).natAbs ∧ a ≤ x)

/-- `min(ALLOWED_SIZES, key=lambda x: (abs(x - numeric_value), x))` of
`utils/formatting.py:88`: the allowed size with lexicographically least
`(|x - v|, x)`.  Since the second key component is the element itself, the key
is injective, so the result does not depend on set-iteration order. -/
def closestAllowedSize (v : Int) : Int :=
  minBySizeKey v ALLOWED_SIZES 1000

/-- `get_valid_quantity` of `utils/formatting.py:56-90` (the `_quantity_cache`
memoisation is a pure-function optimisation and is not part of the value
semantics). -/
def get_valid_quantity : CellNum → Option Int
  | CellNum.nonNumeric => none
  | CellNum.numeric q =>
    let n := coerceToWhole q
    if n ∈ ALLOWED_SIZES then some n else some (closestAllowedSize n)

/-! ## Configuration validation and row processing (`subscription_manager.py`) -/

/-- A worksheet's `input_parameters` dict: association list from parameter
name to configured column letter. -/
abbrev InputParams := List (String × String)

/-- `key in input_parameters and input_parameters[key].strip()` truthiness:
the stripped value of a present key, `""` when the key is absent. -/
def paramStripped (params : InputParams) (key : String) : String :=
  match params.lookup key with
  | some v => pyStrip v
  | none => ""

/-- The identifier-selection loop of `is_valid_config`
(`subscription_manager.py:31-35`): the first of `figi`, `cusip`, `isin` that
is present with non-empty stripped value. -/
def selectIdentifierKey (params : InputParams) : Option String :=
  if paramStripped params "figi" ≠ "" then some "figi"
  else if paramStripped params "cusip" ≠ "" then some "cusip"
  else if paramStripped params "isin" ≠ "" then some "isin"
  else none

/-- `is_valid_config` (`subscription_manager.py:23-43`): requires some
identifier key plus non-empty `side`, `quantity`, `rfq_label`, `ats`; returns
`(is_valid, identifier_key)`. -/
def is_valid_config (params : InputParams) : Bool × Option String :=
  match selectIdentifierKey params with
  | none => (false, none)
  | some idKey =>
    if paramStripped params "side" ≠ "" ∧ paramStripped params "quantity" ≠ "" ∧
       paramStripped params "rfq_label" ≠ "" ∧ paramStripped params "ats" ≠ "" then
      (true, some idKey)
    else (false, some idKey)

/-- One data row of a worksheet, as read from the configured columns
(`subscription_manager.py:145-153`).  A cell is `none` when it is empty or not
a string (the code's `not x or not isinstance(x, str)` guards); the quantity
cell is classified by whether `float(x)` succeeds. -/
structure RowCells where
  identifier : Option String
  side : Option String
  quantity : CellNum
  rfq_label : Option String
  ats : Option String
deriving Repr

/-- The external FIGI-resolution data consumed by `utils/get_figi.py`: the
CUSIP→FIGI and ISIN→FIGI maps loaded from the bond-data service, returning
`""` for a missing entry (as `dict.get(key, "")` does). -/
structure FigiData where
  cusip_to_figi : String → String
  isin_to_figi : String → String

/-- `get_figi` (`utils/get_figi.py`): empty value resolves to `""`; a `figi`
identifier is returned upper-cased as-is; `cusip`/`isin` go through the loaded
maps; any other identifier type yields `""`. -/
def get_figi (d : FigiData) (identifier_type identifier_value : String) : String :=
  if identifier_value = "" then ""
  else
    let val_upper := pyUpper identifier_value
    if identifier_type = "figi" then val_upper
    else if identifier_type = "cusip" then d.cusip_to_figi val_upper
    else if identifier_type = "isin" then d.isin_to_figi val_upper
    else ""

/-- Allowed side values (`subscription_manager.py:15`). -/
def ALLOWED_SIDES : List String := ["bid", "offer", "dealer"]

/-- Allowed rfq_label values (`subscription_manager.py:18`). -/
def ALLOWED_RFQ_LABELS : List String := ["price", "spread", "ytm"]

/-- Allowed ats values (`subscription_manager.py:21`). -/
def ALLOWED_ATS : List String := ["N", "Y"]

/-- The per-row validation/normalization of
`subscription_manager.py:156-209`: returns the row's `SubscriptionKey` or
`none` when the row is skipped. -/
def processRow (d : FigiData) (selected_identifier : String) (row : RowCells) :
    Option SubKey :=
  match row.identifier with
  | none => none
  | some identifier =>
    let identifier_upper := pyUpper (pyStrip identifier)
    match row.side with
    | none => none
    | some side =>
      let side_lower := pyLower (pyStrip side)
      if side_lower ∉ ALLOWED_SIDES then none
      else
        match get_valid_quantity row.quantity with
        | none => none
        | some quantity =>
          match row.rfq_label with
          | none => none
          | some rfq_label_value =>
            let rfq_label_val := pyLower (pyStrip rfq_label_value)
            if rfq_label_val ∉ ALLOWED_RFQ_LABELS then none
            else
              match row.ats with
              | none => none
              | some ats_value =>
                let ats_val := pyUpper (pyStrip ats_value)
                if ats_val ∉ ALLOWED_ATS then none
                else
                  let figi := get_figi d selected_identifier identifier_upper
                  if figi = "" then none
                  else some ⟨figi, quantity, rfq_label_val, side_lower, ats_val⟩

/-- The `new_subscriptions` dict built at `subscription_manager.py:144-209`,
as its key list in insertion order (the payload stored under a key is
determined by the key, so a later duplicate row changes nothing). -/
def buildNewSubscriptions (d : FigiData) (selected_identifier : String)
    (rows : List RowCells) : List SubKey :=
  rows.foldl
    (fun acc row =>
      match processRow d selected_identifier row with
      | none => acc
      | some k => if k ∈ acc then acc else acc ++ [k])
    []

/-- `update_subscriptions_for_sheet` including the configuration-validation
prologue (`subscription_manager.py:76-130`): an invalid configuration aborts
before any table mutation and before any message is sent, and a sheet with no
data rows (`total_rows < start_row`) returns early likewise. -/
def update_subscriptions_for_sheet_full (d : FigiData) (ws : String)
    (params : InputParams) (rows : List RowCells) (table : SubTable) :
    ReconcileResult :=
  match is_valid_config params with
  | (false, _) => ⟨table, [], []⟩
  | (true, none) => ⟨table, [], []⟩
  | (true, some idKey) =>
    if rows.isEmpty then ⟨table, [], []⟩
    else update_subscriptions_for_sheet ws (buildNewSubscriptions d idKey rows) table

/-! ## Inference intake and flush path (`websocket_event_listener.py`) -/

/-- The `quantity` field of an inbound inference item, as seen by
`int(qty_inf)` at `websocket_event_listener.py:348-358`: absent (`None`),
coercible to a number (ints, floats, numeric strings — `int` truncates a
float toward zero), or raising on coercion. -/
inductive QtyField where
  | missing
  | numeric (q : ℚ)
  | nonCoercible
deriving DecidableEq, Repr

/-- Python's `int()` on a number: truncation toward zero. -/
def pyInt (q : ℚ) : Int := if 0 ≤ q then ⌊q⌋ else ⌈q⌉

/-- One inbound inference item (`websocket_event_listener.py:342-383`).
`figi`, `side`, `ats_indicator` are the `str(...)` coercions of the raw
fields (absent fields coerce to `""`).  Each of `price`/`spread`/`ytm` is the
item's array when the field is present, is a list, and is non-empty — the
three conditions of `websocket_event_listener.py:363` — and `[]` otherwise,
which the candidate scan treats identically. -/
structure InferenceItem where
  figi : String
  side : String
  quantity : QtyField
  price : List ℚ
  spread : List ℚ
  ytm : List ℚ
  ats_indicator : String
  date : String
deriving DecidableEq, Repr

/-- The candidate scan of `websocket_event_listener.py:361-365`: the first of
`price`, `spread`, `ytm` with a populated array. -/
def detectInferenceType (it : InferenceItem) : Option String :=
  if it.price ≠ [] then some "price"
  else if it.spread ≠ [] then some "spread"
  else if it.ytm ≠ [] then some "ytm"
  else none

/-- The cache key of `websocket_event_listener.py:378-379`
(`f"{figi}_{side}_{qty}_{type}_{ats}"`), kept as its five components. -/
structure InferenceKey where
  figi : String
  side : String
  quantity : Int
  inf_type : String
  ats : String
deriving DecidableEq, Repr

/-- One `LATEST_INFERENCES` entry: three slots, each holding the
most-recently stored item of that kind (`websocket_event_listener.py:380-383`). -/
structure InferenceEntry where
  price : Option InferenceItem
  spread : Option InferenceItem
  ytm : Option InferenceItem
deriving DecidableEq, Repr

/-- The `LATEST_INFERENCES` dict as an insertion-ordered association list. -/
abbrev InferenceCache := List (InferenceKey × InferenceEntry)

/-- Dict lookup in the inference cache. -/
def lookupInf (k : InferenceKey) : InferenceCache → Option InferenceEntry
  | [] => none
  | (k1, e1) :: rest => if k1 = k then some e1 else lookupInf k rest

/-- Dict value assignment in the inference cache for a present key. -/
def setInf (k : InferenceKey) (e : InferenceEntry) : InferenceCache → InferenceCache
  | [] => []
  | (k1, e1) :: rest => if k1 = k then (k, e) :: rest else (k1, e1) :: setInf k e rest

/-- `LATEST_INFERENCES[unique_key][inference_type] = inf`: store the item in
the slot named by the detected type. -/
def setSlot (e : InferenceEntry) (inf_type : String) (it : InferenceItem) :
    InferenceEntry :=
  if inf_type = "price" then { e with price := some it }
  else if inf_type = "spread" then { e with spread := some it }
  else { e with ytm := some it }

/-- Read a slot by type name. -/
def getSlot (e : InferenceEntry) (inf_type : String) : Option InferenceItem :=
  if inf_type = "price" then e.price
  else if inf_type = "spread" then e.spread
  else e.ytm

/-- `websocket_event_listener.py:380-383`: create the three-slot entry when
the key is new, then store the item in the detected slot. -/
def updateCache (cache : InferenceCache) (k : InferenceKey) (inf_type : String)
    (it : InferenceItem) : InferenceCache :=
  match lookupInf k cache with
  | some e => setInf k (setSlot e inf_type it) cache
  | none => cache ++ [(k, setSlot ⟨none, none, none⟩ inf_type it)]

/-- The per-item validation of `handle_received_message`
(`websocket_event_listener.py:342-379`), distilled to the item's cache key:
`none` exactly when the item is skipped.  Checks, in code order: non-empty
stripped upper-cased figi; non-empty stripped lower-cased side and a present
quantity; `int(quantity)` succeeding; a populated candidate array; an ats
flag in `{N, Y}`. -/
def itemKey (it : InferenceItem) : Option InferenceKey :=
  let figi_inf := pyUpper (pyStrip it.figi)
  if figi_inf = "" then none
  else
    let side_inf := pyLower (pyStrip it.side)
    match it.quantity with
    | QtyField.missing => none
    | QtyField.nonCoercible => none
    | QtyField.numeric q =>
      if side_inf = "" then none
      else
        let qty_inf := pyInt q
        match detectInferenceType it with
        | none => none
        | some inference_type =>
          let ats_inf := pyUpper (pyStrip it.ats_indicator)
          if ats_inf = "N" ∨ ats_inf = "Y" then
            some ⟨figi_inf, side_inf, qty_inf, inference_type, ats_inf⟩
          else none

/-- Processing of one item of the `inference` list inside
`handle_received_message`: a failed validation leaves the cache untouched
(`continue`); otherwise the item is stored under its key. -/
def processInferenceItem (cache : InferenceCache) (it : InferenceItem) :
    InferenceCache :=
  match itemKey it with
  | none => cache
  | some k => updateCache cache k k.inf_type it

/-- `handle_received_message` over the message's `inference` list
(`websocket_event_listener.py:342-383`): items are processed left to right,
each independently. -/
def handle_received_message (items : List InferenceItem) (cache : InferenceCache) :
    InferenceCache :=
  items.foldl processInferenceItem cache

/-- The array-reversal rule of the flush path
(`websocket_event_listener.py:268-273`): `arr` is reversed exactly when
`(inf_type == "price" and side == "offer") or (inf_type != "price" and side == "bid")`. -/
def applyReversalRule (inf_type side : String) (arr : List ℚ) : List ℚ :=
  if (inf_type = "price" ∧ side = "offer") ∨ (inf_type ≠ "price" ∧ side = "bid") then
    arr.reverse
  else arr

/-! ## Connection retry loop (`websocket_handler.py`) -/

/-- The connection states of the spec's state machine.  The code keeps a
boolean `connected`; `Connecting` is the phase inside an attempt of
`WebSocketHandler.connect`, `Disconnected` the phase sleeping before a retry.
`GivenUp` is a terminal give-up state that exists only as a vocabulary item:
the `while True` loop of `websocket_handler.py:35-55` has no exit on failure,
so no run ever produces it. -/
inductive ConnectionState where
  | Disconnected
  | Connecting
  | Connected
  | GivenUp
deriving DecidableEq, Repr

/-- The fixed retry delay, `await asyncio.sleep(60)` at
`websocket_handler.py:55`. -/
def RECONNECT_DELAY_SECONDS : Nat := 60

/-- The observable trace of `WebSocketHandler.connect`
(`websocket_handler.py:34-55`) on a given sequence of attempt outcomes
(`true` = `websockets.connect` succeeds): each failed attempt sets
`connected = False` and sleeps `RECONNECT_DELAY_SECONDS` before retrying, a
successful attempt sets `connected = True` and leaves the loop.  Each trace
element is the state entered after the attempt, paired with the scheduled
delay before the next attempt. -/
def connectTrace : List Bool → List (ConnectionState × Nat)
  | [] => []
  | ok :: rest =>
    if ok then [(ConnectionState.Connected, 0)]
    else (ConnectionState.Disconnected, RECONNECT_DELAY_SECONDS) :: connectTrace rest

/-- The state of the retry loop after consuming the given attempt outcomes:
`Connected` once an attempt succeeds, otherwise back in `Connecting` (the
loop body is about to run its next attempt — the loop never exits on
failure). -/
def connectFinalState : List Bool → ConnectionState
  | [] => ConnectionState.Connecting
  | ok :: rest => if ok then ConnectionState.Connected else connectFinalState rest

/-- The failure path of `WebSocketHandler.receive_messages`
(`websocket_handler.py:118-128`): on a connection error the handler sets
`connected = False` and re-enters `connect`, so the subsequent behaviour is
the retry loop again. -/
def stateAfterReceiveFailure (outcomes : List Bool) : ConnectionState :=
  connectFinalState outcomes

/-! ## Statement vocabulary and concrete instances -/

/-- The global-table invariant of the spec: every stored record is referenced
by at least one view. -/
def tableWsNonempty (t : SubTable) : Prop := ∀ p ∈ t, p.2.worksheets ≠ []

instance (t : SubTable) : Decidable (tableWsNonempty t) := by
  unfold tableWsNonempty
  infer_instance

/-- Well-formedness of the global table: pairwise-distinct keys and no
duplicated view name inside any record's `worksheets` list. -/
def tableWF (t : SubTable) : Prop :=
  (keysOf t).Nodup ∧ ∀ p ∈ t, p.2.worksheets.Nodup

instance (t : SubTable) : Decidable (tableWF t) := by
  unfold tableWF
  infer_instance

/-- A concrete subscription key used to instantiate the reconciler theorems. -/
def kW : SubKey := ⟨"BBG000TEST01", 1000000, "price", "bid", "Y"⟩

/-- A one-record table: `kW` referenced by worksheet `"A"` only. -/
def tabA : SubTable := [(kW, ⟨kW, ["A"]⟩)]

/-- A one-record table: `kW` referenced by worksheets `"A"` and `"B"`. -/
def tabAB : SubTable := [(kW, ⟨kW, ["A", "B"]⟩)]

/-- No-lookup-data FIGI maps (every CUSIP/ISIN resolution fails; `figi`-typed
identifiers still resolve to themselves). -/
def figiNoData : FigiData := ⟨fun _ => "", fun _ => ""⟩

/-- A worksheet configuration in which BOTH `figi` and `cusip` are set, plus
all four further required fields. -/
def paramsTwoIds : InputParams :=
  [("figi", "A"), ("cusip", "B"), ("side", "C"), ("quantity", "D"),
   ("rfq_label", "E"), ("ats", "F")]

/-- A single valid data row (figi identifier column). -/
def rowBid : RowCells :=
  ⟨some "id1", some "bid", CellNum.numeric 1000, some "price", some "Y"⟩

/-- An inbound inference item with TWO populated arrays (`price` and
`spread`) and a non-integral quantity `5.5`. -/
def itemTwoArrays : InferenceItem :=
  ⟨"F", "bid", QtyField.numeric (mkRat 11 2), [1], [2], [], "Y", ""⟩

/-- A worksheet configuration with no identifier field at all. -/
def paramsInvalid : InputParams := [("side", "C")]

/-- A fully valid inbound inference item carrying a `ytm` array. -/
def itemValid : InferenceItem :=
  ⟨"F", "bid", QtyField.numeric 1000, [], [], [3], "N", "d"⟩

/-- An inference item with an empty canonical id, which the intake skips. -/
def itemBad : InferenceItem :=
  ⟨"", "bid", QtyField.numeric 1000, [1], [], [], "N", ""⟩

/-! ## Association-list lemmas -/

theorem lookupKey_eq_none_iff (k : SubKey) (t : SubTable) :
    lookupKey k t = none ↔ k ∉ keysOf t := by
  induction t with
  | nil => simp [lookupKey, keysOf]
  | cons p rest ih =>
    obtain ⟨k1, r1⟩ := p
    by_cases h : k1 = k
    · subst h
      simp [lookupKey, keysOf]
    · simp [lookupKey, keysOf, h, ih, Ne.symm h]

theorem lookupKey_append (k : SubKey) (t1 t2 : SubTable) :
    lookupKey k (t1 ++ t2) =
      match lookupKey k t1 with
      | some r => some r
      | none => lookupKey k t2 := by
  induction t1 with
  | nil => simp [lookupKey]
  | cons p rest ih =>
    obtain ⟨k1, r1⟩ := p
    by_cases h : k1 = k
    · simp [lookupKey, h]
    · simp [lookupKey, h, ih]

theorem lookupKey_setKey_of_ne (k1 k : SubKey) (r : SubRecord) (t : SubTable)
    (h : k1 ≠ k) : lookupKey k1 (setKey k r t) = lookupKey k1 t := by
  induction t with
  | nil => simp [setKey]
  | cons p rest ih =>
    obtain ⟨k2, r2⟩ := p
    by_cases h2 : k2 = k
    · subst h2
      have hne : ¬(k2 = k1) := fun hh => h hh.symm
      simp [setKey, lookupKey, hne]
    · by_cases h3 : k2 = k1
      · simp [setKey, lookupKey, h2, h3, h]
      · simp [setKey, lookupKey, h2, h3, ih]

theorem lookupKey_setKey_self (k : SubKey) (r : SubRecord) (t : SubTable)
    (h : lookupKey k t ≠ none) : lookupKey k (setKey k r t) = some r := by
  induction t with
  | nil => simp [lookupKey] at h
  | cons p rest ih =>
    obtain ⟨k2, r2⟩ := p
    by_cases h2 : k2 = k
    · simp [setKey, lookupKey, h2]
    · simp [lookupKey, h2] at h
      simp [setKey, lookupKey, h2, ih h]

theorem keysOf_setKey (k : SubKey) (r : SubRecord) (t : SubTable) :
    keysOf (setKey k r t) = keysOf t := by
  induction t with
  | nil => simp [setKey]
  | cons p rest ih =>
    obtain ⟨k2, r2⟩ := p
    by_cases h2 : k2 = k
    · simp [setKey, keysOf, h2]
    · simp only [setKey, keysOf, if_neg h2, List.map_cons]
      simpa [keysOf] using ih

theorem mem_setKey (p : SubKey × SubRecord) (k : SubKey) (r : SubRecord)
    (t : SubTable) : p ∈ setKey k r t → p ∈ t ∨ p = (k, r) := by
  induction t with
  | nil => simp [setKey]
  | cons q rest ih =>
    obtain ⟨k2, r2⟩ := q
    intro h
    by_cases h2 : k2 = k
    · simp only [setKey, if_pos h2, List.mem_cons] at h
      rcases h with h | h
      · right; exact h
      · left; exact List.mem_cons_of_mem _ h
    · simp only [setKey, if_neg h2, List.mem_cons] at h
      rcases h with h | h
      · left; simp [h]
      · rcases ih h with h3 | h3
        · left; exact List.mem_cons_of_mem _ h3
        · right; exact h3

theorem erase_eq_nil_cases (wl : List String) (ws : String) :
    wl.erase ws = [] → wl = [] ∨ wl = [ws] := by
  rcases wl with _ | ⟨a, l⟩
  · intro _
    left
    rfl
  · intro h
    by_cases ha : a = ws
    · subst ha
      rw [List.erase_cons_head] at h
      right
      rw [h]
    · rw [List.erase_cons_tail (by simp [ha])] at h
      simp at h

theorem mem_of_lookupKey (k : SubKey) (r : SubRecord) (t : SubTable) :
    lookupKey k t = some r → (k, r) ∈ t := by
  induction t with
  | nil => simp [lookupKey]
  | cons p rest ih =>
    obtain ⟨k1, r1⟩ := p
    by_cases h1 : k1 = k
    · subst h1
      intro h
      have hr : r1 = r := by simpa [lookupKey] using h
      subst hr
      exact List.mem_cons_self _ _
    · simp only [lookupKey, if_neg h1]
      intro h
      exact List.mem_cons_of_mem _ (ih h)

/-! ## Merge-phase lemmas -/

theorem mergePhase_lookup (ws : String) (keys : List SubKey) (table : SubTable)
    (k : SubKey) :
    lookupKey k (mergePhase ws keys table).1 =
      match lookupKey k table with
      | some r =>
        some ⟨r.subscription,
          if ws ∈ r.worksheets then r.worksheets
          else if k ∈ keys then r.worksheets ++ [ws] else r.worksheets⟩
      | none => if k ∈ keys then some ⟨k, [ws]⟩ else none := by
  induction keys generalizing table with
  | nil =>
    cases h : lookupKey k table with
    | none => simp [mergePhase, h]
    | some r => simp [mergePhase, h]
  | cons k1 rest ih =>
    cases h1 : lookupKey k1 table with
    | some r1 =>
      by_cases hw : ws ∈ r1.worksheets
      · rw [show (mergePhase ws (k1 :: rest) table).1
              = (mergePhase ws rest table).1 by simp [mergePhase, h1, hw]]
        rw [ih table]
        by_cases hk : k = k1
        · subst hk
          rw [h1]
          simp [hw]
        · cases h2 : lookupKey k table with
          | none => simp [List.mem_cons, hk]
          | some r => simp [List.mem_cons, hk]
      · rw [show (mergePhase ws (k1 :: rest) table).1
              = (mergePhase ws rest
                  (setKey k1 ⟨r1.subscription, r1.worksheets ++ [ws]⟩ table)).1 by
            simp [mergePhase, h1, hw]]
        rw [ih]
        by_cases hk : k = k1
        · subst hk
          rw [lookupKey_setKey_self k _ table (by simp [h1]), h1]
          simp [hw]
        · rw [lookupKey_setKey_of_ne k k1 _ table hk]
          cases h2 : lookupKey k table with
          | none => simp [List.mem_cons, hk]
          | some r => simp [List.mem_cons, hk]
    | none =>
      rw [show (mergePhase ws (k1 :: rest) table).1
            = (mergePhase ws rest (table ++ [(k1, ⟨k1, [ws]⟩)])).1 by
          simp [mergePhase, h1]]
      rw [ih]
      by_cases hk : k = k1
      · subst hk
        rw [h1]
        rw [show lookupKey k (table ++ [(k, ⟨k, [ws]⟩)]) = some ⟨k, [ws]⟩ by
          rw [lookupKey_append, h1]
          simp [lookupKey]]
        simp
      · rw [show lookupKey k (table ++ [(k1, ⟨k1, [ws]⟩)]) = lookupKey k table by
          rw [lookupKey_append]
          cases h2 : lookupKey k table with
          | none => simp [lookupKey, hk, Ne.symm hk]
          | some r => simp]
        cases h2 : lookupKey k table with
        | none => simp [List.mem_cons, hk]
        | some r => simp [List.mem_cons, hk]

theorem mergePhase_subMsgs_not_mem_of_present (ws : String) (keys : List SubKey)
    (table : SubTable) (k : SubKey) (h : lookupKey k table ≠ none) :
    k ∉ (mergePhase ws keys table).2 := by
  induction keys generalizing table with
  | nil => simp [mergePhase]
  | cons k1 rest ih =>
    cases h1 : lookupKey k1 table with
    | some r1 =>
      by_cases hw : ws ∈ r1.worksheets
      · rw [show (mergePhase ws (k1 :: rest) table).2
              = (mergePhase ws rest table).2 by simp [mergePhase, h1, hw]]
        exact ih table h
      · rw [show (mergePhase ws (k1 :: rest) table).2
              = (mergePhase ws rest
                  (setKey k1 ⟨r1.subscription, r1.worksheets ++ [ws]⟩ table)).2 by
            simp [mergePhase, h1, hw]]
        apply ih
        by_cases hk : k = k1
        · subst hk
          rw [lookupKey_setKey_self k _ table (by simp [h1])]
          simp
        · rw [lookupKey_setKey_of_ne k k1 _ table hk]
          exact h
    | none =>
      have hk : ¬(k = k1) := by
        intro hh
        subst hh
        exact h h1
      rw [show (mergePhase ws (k1 :: rest) table).2
            = k1 :: (mergePhase ws rest (table ++ [(k1, ⟨k1, [ws]⟩)])).2 by
          simp [mergePhase, h1]]
      intro hmem
      rcases List.mem_cons.mp hmem with hh | hh
      · exact hk hh
      · refine ih (table ++ [(k1, ⟨k1, [ws]⟩)]) ?_ hh
        rw [lookupKey_append]
        cases h2 : lookupKey k table with
        | none => exact absurd h2 h
        | some r => simp

theorem mergePhase_subMsgs_count (ws : String) (keys : List SubKey)
    (table : SubTable) (k : SubKey) :
    List.count k (mergePhase ws keys table).2 =
      if k ∈ keys ∧ lookupKey k table = none then 1 else 0 := by
  induction keys generalizing table with
  | nil => simp [mergePhase]
  | cons k1 rest ih =>
    cases h1 : lookupKey k1 table with
    | some r1 =>
      by_cases hw : ws ∈ r1.worksheets
      · rw [show (mergePhase ws (k1 :: rest) table).2
              = (mergePhase ws rest table).2 by simp [mergePhase, h1, hw]]
        rw [ih table]
        by_cases hk : k = k1
        · subst hk
          simp [h1]
        · simp [List.mem_cons, hk]
      · rw [show (mergePhase ws (k1 :: rest) table).2
              = (mergePhase ws rest
                  (setKey k1 ⟨r1.subscription, r1.worksheets ++ [ws]⟩ table)).2 by
            simp [mergePhase, h1, hw]]
        rw [ih]
        by_cases hk : k = k1
        · subst hk
          rw [lookupKey_setKey_self k _ table (by simp [h1])]
          simp [h1]
        · rw [lookupKey_setKey_of_ne k k1 _ table hk]
          simp [List.mem_cons, hk]
    | none =>
      rw [show (mergePhase ws (k1 :: rest) table).2
            = k1 :: (mergePhase ws rest (table ++ [(k1, ⟨k1, [ws]⟩)])).2 by
          simp [mergePhase, h1]]
      by_cases hk : k = k1
      · subst hk
        rw [List.count_cons_self]
        have hnot : k ∉ (mergePhase ws rest (table ++ [(k, ⟨k, [ws]⟩)])).2 := by
          apply mergePhase_subMsgs_not_mem_of_present
          rw [lookupKey_append, h1]
          simp [lookupKey]
        rw [List.count_eq_zero.mpr hnot]
        simp [h1]
      · rw [List.count_cons_of_ne hk _]
        rw [ih]
        rw [show lookupKey k (table ++ [(k1, ⟨k1, [ws]⟩)]) = lookupKey k table by
          rw [lookupKey_append]
          cases h2 : lookupKey k table with
          | none => simp [lookupKey, Ne.symm hk]
          | some r => simp]
        simp [List.mem_cons, hk]

theorem mergePhase_subMsgs_subset (ws : String) (keys : List SubKey)
    (table : SubTable) (k : SubKey) (h : k ∈ (mergePhase ws keys table).2) :
    k ∈ keys := by
  by_contra hk
  have := mergePhase_subMsgs_count ws keys table k
  rw [if_neg (fun hc => hk hc.1)] at this
  exact (List.count_eq_zero.mp this) h

theorem mergePhase_keys_nodup (ws : String) (keys : List SubKey) (table : SubTable)
    (h : (keysOf table).Nodup) : (keysOf (mergePhase ws keys table).1).Nodup := by
  induction keys generalizing table with
  | nil => simpa [mergePhase] using h
  | cons k1 rest ih =>
    cases h1 : lookupKey k1 table with
    | some r1 =>
      by_cases hw : ws ∈ r1.worksheets
      · rw [show (mergePhase ws (k1 :: rest) table).1
              = (mergePhase ws rest table).1 by simp [mergePhase, h1, hw]]
        exact ih table h
      · rw [show (mergePhase ws (k1 :: rest) table).1
              = (mergePhase ws rest
                  (setKey k1 ⟨r1.subscription, r1.worksheets ++ [ws]⟩ table)).1 by
            simp [mergePhase, h1, hw]]
        apply ih
        rwa [keysOf_setKey]
    | none =>
      rw [show (mergePhase ws (k1 :: rest) table).1
            = (mergePhase ws rest (table ++ [(k1, ⟨k1, [ws]⟩)])).1 by
          simp [mergePhase, h1]]
      apply ih
      have hk1 : k1 ∉ keysOf table := (lookupKey_eq_none_iff k1 table).mp h1
      simp [keysOf, List.nodup_append]
      refine ⟨h, ?_⟩
      simpa [keysOf] using hk1

theorem mergePhase_worksheets_nonempty (ws : String) (keys : List SubKey)
    (table : SubTable) (h : ∀ p ∈ table, p.2.worksheets ≠ []) :
    ∀ p ∈ (mergePhase ws keys table).1, p.2.worksheets ≠ [] := by
  induction keys generalizing table with
  | nil =>
    simpa [mergePhase] using h
  | cons k1 rest ih =>
    cases h1 : lookupKey k1 table with
    | some r1 =>
      by_cases hw : ws ∈ r1.worksheets
      · rw [show (mergePhase ws (k1 :: rest) table).1
              = (mergePhase ws rest table).1 by simp [mergePhase, h1, hw]]
        exact ih table h
      · rw [show (mergePhase ws (k1 :: rest) table).1
              = (mergePhase ws rest
                  (setKey k1 ⟨r1.subscription, r1.worksheets ++ [ws]⟩ table)).1 by
            simp [mergePhase, h1, hw]]
        apply ih
        intro p hp
        rcases mem_setKey p k1 _ table hp with hm | hm
        · exact h p hm
        · subst hm
          simp
    | none =>
      rw [show (mergePhase ws (k1 :: rest) table).1
            = (mergePhase ws rest (table ++ [(k1, ⟨k1, [ws]⟩)])).1 by
          simp [mergePhase, h1]]
      apply ih
      intro p hp
      rcases List.mem_append.mp hp with hm | hm
      · exact h p hm
      · simp only [List.mem_singleton] at hm
        subst hm
        simp

theorem mergePhase_worksheets_nodup (ws : String) (keys : List SubKey)
    (table : SubTable) (h : ∀ p ∈ table, p.2.worksheets.Nodup) :
    ∀ p ∈ (mergePhase ws keys table).1, p.2.worksheets.Nodup := by
  induction keys generalizing table with
  | nil =>
    simpa [mergePhase] using h
  | cons k1 rest ih =>
    cases h1 : lookupKey k1 table with
    | some r1 =>
      by_cases hw : ws ∈ r1.worksheets
      · rw [show (mergePhase ws (k1 :: rest) table).1
              = (mergePhase ws rest table).1 by simp [mergePhase, h1, hw]]
        exact ih table h
      · rw [show (mergePhase ws (k1 :: rest) table).1
              = (mergePhase ws rest
                  (setKey k1 ⟨r1.subscription, r1.worksheets ++ [ws]⟩ table)).1 by
            simp [mergePhase, h1, hw]]
        apply ih
        intro p hp
        rcases mem_setKey p k1 _ table hp with hm | hm
        · exact h p hm
        · subst hm
          have hr1 : r1.worksheets.Nodup := h (k1, r1) (mem_of_lookupKey k1 r1 table h1)
          simp [List.nodup_append, hr1, hw]
    | none =>
      rw [show (mergePhase ws (k1 :: rest) table).1
            = (mergePhase ws rest (table ++ [(k1, ⟨k1, [ws]⟩)])).1 by
          simp [mergePhase, h1]]
      apply ih
      intro p hp
      rcases List.mem_append.mp hp with hm | hm
      · exact h p hm
      · simp only [List.mem_singleton] at hm
        subst hm
        simp

/-! ## Drop-phase lemmas -/

theorem dropPhase_unsubs_mem (ws : String) (keys : List SubKey) (table : SubTable)
    (k : SubKey) (h : k ∈ (dropPhase ws keys table).2) :
    k ∈ keysOf table ∧ k ∉ keys := by
  induction table with
  | nil => simp [dropPhase] at h
  | cons p rest ih =>
    obtain ⟨k1, r1⟩ := p
    by_cases hc : ws ∈ r1.worksheets ∧ k1 ∉ keys
    · by_cases hw : r1.worksheets.erase ws = []
      · rw [show (dropPhase ws keys ((k1, r1) :: rest)).2
              = k1 :: (dropPhase ws keys rest).2 by simp [dropPhase, hc, hw]] at h
        rcases List.mem_cons.mp h with hh | hh
        · subst hh
          exact ⟨by simp [keysOf], hc.2⟩
        · have := ih hh
          exact ⟨by simp [keysOf] at this ⊢; exact Or.inr this.1, this.2⟩
      · rw [show (dropPhase ws keys ((k1, r1) :: rest)).2
              = (dropPhase ws keys rest).2 by simp [dropPhase, hc, hw]] at h
        have := ih h
        exact ⟨by simp [keysOf] at this ⊢; exact Or.inr this.1, this.2⟩
    · rw [show (dropPhase ws keys ((k1, r1) :: rest)).2
            = (dropPhase ws keys rest).2 by simp [dropPhase, hc]] at h
      have := ih h
      exact ⟨by simp [keysOf] at this ⊢; exact Or.inr this.1, this.2⟩

theorem dropPhase_lookup (ws : String) (keys : List SubKey) (table : SubTable)
    (k : SubKey) (hnd : (keysOf table).Nodup) :
    lookupKey k (dropPhase ws keys table).1 =
      match lookupKey k table with
      | some r =>
        if ws ∈ r.worksheets ∧ k ∉ keys then
          (if r.worksheets.erase ws = [] then none
           else some ⟨r.subscription, r.worksheets.erase ws⟩)
        else some r
      | none => none := by
  induction table with
  | nil => simp [dropPhase, lookupKey]
  | cons p rest ih =>
    obtain ⟨k1, r1⟩ := p
    have hnd2 : k1 ∉ keysOf rest ∧ (keysOf rest).Nodup := by
      simpa [keysOf, List.nodup_cons] using hnd
    have hnd1 : (keysOf rest).Nodup := hnd2.2
    have hk1 : k1 ∉ keysOf rest := hnd2.1
    by_cases hk : k = k1
    · subst hk
      have hrest : lookupKey k rest = none := (lookupKey_eq_none_iff k rest).mpr hk1
      by_cases hc : ws ∈ r1.worksheets ∧ k ∉ keys
      · by_cases hw : r1.worksheets.erase ws = []
        · rw [show (dropPhase ws keys ((k, r1) :: rest)).1
                = (dropPhase ws keys rest).1 by simp [dropPhase, hc, hw]]
          rw [ih hnd1, hrest]
          simp [lookupKey, hc, hw]
        · rw [show (dropPhase ws keys ((k, r1) :: rest)).1
                = (k, ⟨r1.subscription, r1.worksheets.erase ws⟩) :: (dropPhase ws keys rest).1 by
              simp [dropPhase, hc, hw]]
          simp [lookupKey, hc, hw]
      · rw [show (dropPhase ws keys ((k, r1) :: rest)).1
              = (k, r1) :: (dropPhase ws keys rest).1 by simp [dropPhase, hc]]
        simp [lookupKey, hc]
    · have hne : ¬(k1 = k) := fun hh => hk hh.symm
      by_cases hc : ws ∈ r1.worksheets ∧ k1 ∉ keys
      · by_cases hw : r1.worksheets.erase ws = []
        · rw [show (dropPhase ws keys ((k1, r1) :: rest)).1
                = (dropPhase ws keys rest).1 by simp [dropPhase, hc, hw]]
          rw [ih hnd1]
          simp [lookupKey, hne]
        · rw [show (dropPhase ws keys ((k1, r1) :: rest)).1
                = (k1, ⟨r1.subscription, r1.worksheets.erase ws⟩) :: (dropPhase ws keys rest).1 by
              simp [dropPhase, hc, hw]]
          rw [lookupKey, if_neg hne, ih hnd1]
          simp [lookupKey, hne]
      · rw [show (dropPhase ws keys ((k1, r1) :: rest)).1
              = (k1, r1) :: (dropPhase ws keys rest).1 by simp [dropPhase, hc]]
        rw [lookupKey, if_neg hne, ih hnd1]
        simp [lookupKey, hne]

theorem dropPhase_unsubs_count (ws : String) (keys : List SubKey) (table : SubTable)
    (k : SubKey) (hnd : (keysOf table).Nodup) :
    List.count k (dropPhase ws keys table).2 =
      match lookupKey k table with
      | some r =>
        if ws ∈ r.worksheets ∧ k ∉ keys ∧ r.worksheets.erase ws = [] then 1 else 0
      | none => 0 := by
  induction table with
  | nil => simp [dropPhase, lookupKey]
  | cons p rest ih =>
    obtain ⟨k1, r1⟩ := p
    have hnd2 : k1 ∉ keysOf rest ∧ (keysOf rest).Nodup := by
      simpa [keysOf, List.nodup_cons] using hnd
    have hnd1 : (keysOf rest).Nodup := hnd2.2
    have hk1 : k1 ∉ keysOf rest := hnd2.1
    by_cases hk : k = k1
    · subst hk
      have hrest : lookupKey k rest = none := (lookupKey_eq_none_iff k rest).mpr hk1
      have hrest0 : List.count k (dropPhase ws keys rest).2 = 0 := by
        rw [List.count_eq_zero]
        intro hmem
        exact hk1 (dropPhase_unsubs_mem ws keys rest k hmem).1
      by_cases hc : ws ∈ r1.worksheets ∧ k ∉ keys
      · by_cases hw : r1.worksheets.erase ws = []
        · rw [show (dropPhase ws keys ((k, r1) :: rest)).2
                = k :: (dropPhase ws keys rest).2 by simp [dropPhase, hc, hw]]
          rw [List.count_cons_self, hrest0]
          simp [lookupKey, hc, hw]
        · rw [show (dropPhase ws keys ((k, r1) :: rest)).2
                = (dropPhase ws keys rest).2 by simp [dropPhase, hc, hw]]
          rw [hrest0]
          simp [lookupKey, hc, hw]
      · rw [show (dropPhase ws keys ((k, r1) :: rest)).2
              = (dropPhase ws keys rest).2 by simp [dropPhase, hc]]
        rw [hrest0]
        rcases Decidable.not_and_iff_or_not.mp hc with hc1 | hc2
        · simp [lookupKey, hc1]
        · simp [lookupKey, hc2]
    · have hne : ¬(k1 = k) := fun hh => hk hh.symm
      have hmain : List.count k (dropPhase ws keys ((k1, r1) :: rest)).2
          = List.count k (dropPhase ws keys rest).2 := by
        by_cases hc : ws ∈ r1.worksheets ∧ k1 ∉ keys
        · by_cases hw : r1.worksheets.erase ws = []
          · rw [show (dropPhase ws keys ((k1, r1) :: rest)).2
                  = k1 :: (dropPhase ws keys rest).2 by simp [dropPhase, hc, hw]]
            exact List.count_cons_of_ne hk _
          · rw [show (dropPhase ws keys ((k1, r1) :: rest)).2
                  = (dropPhase ws keys rest).2 by simp [dropPhase, hc, hw]]
        · rw [show (dropPhase ws keys ((k1, r1) :: rest)).2
                = (dropPhase ws keys rest).2 by simp [dropPhase, hc]]
      rw [hmain, ih hnd1]
      simp [lookupKey, hne]

theorem dropPhase_keys_sublist (ws : String) (keys : List SubKey) (table : SubTable) :
    (keysOf (dropPhase ws keys table).1).Sublist (keysOf table) := by
  induction table with
  | nil => simp [dropPhase, keysOf]
  | cons p rest ih =>
    obtain ⟨k1, r1⟩ := p
    by_cases hc : ws ∈ r1.worksheets ∧ k1 ∉ keys
    · by_cases hw : r1.worksheets.erase ws = []
      · rw [show (dropPhase ws keys ((k1, r1) :: rest)).1
              = (dropPhase ws keys rest).1 by simp [dropPhase, hc, hw]]
        exact ih.cons _
      · rw [show (dropPhase ws keys ((k1, r1) :: rest)).1
              = (k1, ⟨r1.subscription, r1.worksheets.erase ws⟩) :: (dropPhase ws keys rest).1 by
            simp [dropPhase, hc, hw]]
        simpa [keysOf] using ih.cons₂ k1
    · rw [show (dropPhase ws keys ((k1, r1) :: rest)).1
            = (k1, r1) :: (dropPhase ws keys rest).1 by simp [dropPhase, hc]]
      simpa [keysOf] using ih.cons₂ k1

theorem dropPhase_worksheets_nonempty (ws : String) (keys : List SubKey)
    (table : SubTable) (h : ∀ p ∈ table, p.2.worksheets ≠ []) :
    ∀ p ∈ (dropPhase ws keys table).1, p.2.worksheets ≠ [] := by
  induction table with
  | nil => simp [dropPhase]
  | cons q rest ih =>
    obtain ⟨k1, r1⟩ := q
    have hrest : ∀ p ∈ rest, p.2.worksheets ≠ [] :=
      fun p hp => h p (List.mem_cons_of_mem _ hp)
    by_cases hc : ws ∈ r1.worksheets ∧ k1 ∉ keys
    · by_cases hw : r1.worksheets.erase ws = []
      · rw [show (dropPhase ws keys ((k1, r1) :: rest)).1
              = (dropPhase ws keys rest).1 by simp [dropPhase, hc, hw]]
        exact ih hrest
      · rw [show (dropPhase ws keys ((k1, r1) :: rest)).1
              = (k1, ⟨r1.subscription, r1.worksheets.erase ws⟩) :: (dropPhase ws keys rest).1 by
            simp [dropPhase, hc, hw]]
        intro p hp
        rcases List.mem_cons.mp hp with hh | hh
        · subst hh
          simpa using hw
        · exact ih hrest p hh
    · rw [show (dropPhase ws keys ((k1, r1) :: rest)).1
            = (k1, r1) :: (dropPhase ws keys rest).1 by simp [dropPhase, hc]]
      intro p hp
      rcases List.mem_cons.mp hp with hh | hh
      · subst hh
        exact h (k1, r1) (List.mem_cons_self _ _)
      · exact ih hrest p hh

theorem dropPhase_worksheets_nodup (ws : String) (keys : List SubKey)
    (table : SubTable) (h : ∀ p ∈ table, p.2.worksheets.Nodup) :
    ∀ p ∈ (dropPhase ws keys table).1, p.2.worksheets.Nodup := by
  induction table with
  | nil => simp [dropPhase]
  | cons q rest ih =>
    obtain ⟨k1, r1⟩ := q
    have hrest : ∀ p ∈ rest, p.2.worksheets.Nodup :=
      fun p hp => h p (List.mem_cons_of_mem _ hp)
    by_cases hc : ws ∈ r1.worksheets ∧ k1 ∉ keys
    · by_cases hw : r1.worksheets.erase ws = []
      · rw [show (dropPhase ws keys ((k1, r1) :: rest)).1
              = (dropPhase ws keys rest).1 by simp [dropPhase, hc, hw]]
        exact ih hrest
      · rw [show (dropPhase ws keys ((k1, r1) :: rest)).1
              = (k1, ⟨r1.subscription, r1.worksheets.erase ws⟩) :: (dropPhase ws keys rest).1 by
            simp [dropPhase, hc, hw]]
        intro p hp
        rcases List.mem_cons.mp hp with hh | hh
        · subst hh
          exact (h (k1, r1) (List.mem_cons_self _ _)).erase ws
        · exact ih hrest p hh
    · rw [show (dropPhase ws keys ((k1, r1) :: rest)).1
            = (k1, r1) :: (dropPhase ws keys rest).1 by simp [dropPhase, hc]]
      intro p hp
      rcases List.mem_cons.mp hp with hh | hh
      · subst hh
        exact h (k1, r1) (List.mem_cons_self _ _)
      · exact ih hrest p hh

/-- The cross-filter is vacuous within one pass: every raw unsubscribe key is
outside `newKeys` while every subscribe key is inside, so the filter keeps the
whole raw batch. -/
theorem update_unsubs_eq_raw (ws : String) (newKeys : List SubKey) (table : SubTable) :
    (update_subscriptions_for_sheet ws newKeys table).unsubscribeMsgs
      = (dropPhase ws newKeys (mergePhase ws newKeys table).1).2 := by
  unfold update_subscriptions_for_sheet
  apply List.filter_eq_self.mpr
  intro a ha
  have h1 := dropPhase_unsubs_mem ws newKeys (mergePhase ws newKeys table).1 a ha
  have h2 : a ∉ (mergePhase ws newKeys table).2 := by
    intro hmem
    exact h1.2 (mergePhase_subMsgs_subset ws newKeys table a hmem)
  simpa using h2

/-! ## Reconcile-level characterization -/

/-- Full characterization of what one reconcile call does to a key's table
entry. -/
theorem update_lookup_char (ws : String) (newKeys : List SubKey) (table : SubTable)
    (k : SubKey) (hnd : (keysOf table).Nodup) :
    lookupKey k (update_subscriptions_for_sheet ws newKeys table).table =
      match lookupKey k table with
      | some r =>
        if k ∈ newKeys then
          some ⟨r.subscription,
            if ws ∈ r.worksheets then r.worksheets else r.worksheets ++ [ws]⟩
        else
          if ws ∈ r.worksheets then
            (if r.worksheets.erase ws = [] then none
             else some ⟨r.subscription, r.worksheets.erase ws⟩)
          else some r
      | none => if k ∈ newKeys then some ⟨k, [ws]⟩ else none := by
  have hndm := mergePhase_keys_nodup ws newKeys table hnd
  have hm := mergePhase_lookup ws newKeys table k
  have hd := dropPhase_lookup ws newKeys (mergePhase ws newKeys table).1 k hndm
  show lookupKey k (dropPhase ws newKeys (mergePhase ws newKeys table).1).1 = _
  rw [hd]
  cases h : lookupKey k table with
  | none =>
    rw [h] at hm
    by_cases hin : k ∈ newKeys
    · rw [if_pos hin] at hm
      rw [hm]
      simp [hin]
    · rw [if_neg hin] at hm
      rw [hm]
      simp [hin]
  | some r =>
    rw [h] at hm
    by_cases hw : ws ∈ r.worksheets
    · rw [hm]
      simp only [if_pos hw]
      by_cases hin : k ∈ newKeys
      · simp [hw, hin]
      · simp [hw, hin]
    · rw [hm]
      simp only [if_neg hw]
      by_cases hin : k ∈ newKeys
      · simp [hw, hin]
      · simp [hw, hin]

/-- The subscribe batch contains a key exactly once when this pass first
inserts it, and never otherwise. -/
theorem update_subs_count (ws : String) (newKeys : List SubKey) (table : SubTable)
    (k : SubKey) :
    List.count k (update_subscriptions_for_sheet ws newKeys table).subscribeMsgs
      = if k ∈ newKeys ∧ lookupKey k table = none then 1 else 0 :=
  mergePhase_subMsgs_count ws newKeys table k

/-- The outgoing unsubscribe batch contains a key exactly once when this pass
removed its record (the worksheet was its last reference), and never
otherwise. -/
theorem update_unsubs_count (ws : String) (newKeys : List SubKey) (table : SubTable)
    (k : SubKey) (hnd : (keysOf table).Nodup) :
    List.count k (update_subscriptions_for_sheet ws newKeys table).unsubscribeMsgs
      = match lookupKey k table with
        | some r =>
          if ws ∈ r.worksheets ∧ k ∉ newKeys ∧ r.worksheets.erase ws = [] then 1 else 0
        | none => 0 := by
  have hndm := mergePhase_keys_nodup ws newKeys table hnd
  have hm := mergePhase_lookup ws newKeys table k
  rw [update_unsubs_eq_raw,
    dropPhase_unsubs_count ws newKeys (mergePhase ws newKeys table).1 k hndm]
  cases h : lookupKey k table with
  | none =>
    rw [h] at hm
    by_cases hin : k ∈ newKeys
    · rw [if_pos hin] at hm
      rw [hm]
      simp [hin]
    · rw [if_neg hin] at hm
      rw [hm]
  | some r =>
    rw [h] at hm
    by_cases hin : k ∈ newKeys
    · rw [hm]
      by_cases hw : ws ∈ r.worksheets
      · simp [hw, hin]
      · simp [hw, hin]
    · rw [hm]
      by_cases hw : ws ∈ r.worksheets
      · simp [hw, hin]
      · simp [hw, hin]

/-! ## Claim theorems: subscription reconciler -/

/-- Claim C1: reference-counted subscription emission.  In any reconcile call
over any table state with distinct keys: (a) a key is subscribed exactly once,
namely when this pass first inserts it, and zero times otherwise, regardless
of how many rows produced it; (b) a key the view needs that is already in the
table emits no subscribe and its referencing-view list grows by exactly this
view when absent (so the count reaches the number of distinct referencing
views); (c) removing the only referencing view removes the record and emits
exactly one unsubscribe; (d) removing one of at least two referencing views
removes only this view and emits no message. -/
theorem claim_C1_refcounted_emission (ws : String) (newKeys : List SubKey)
    (table : SubTable) (k : SubKey) (hnd : (keysOf table).Nodup) :
    (List.count k (update_subscriptions_for_sheet ws newKeys table).subscribeMsgs
        = if k ∈ newKeys ∧ lookupKey k table = none then 1 else 0)
    ∧ (k ∈ newKeys → lookupKey k table ≠ none →
        viewsOf k (update_subscriptions_for_sheet ws newKeys table).table
          = (if ws ∈ viewsOf k table then viewsOf k table
             else viewsOf k table ++ [ws])
        ∧ List.count k (update_subscriptions_for_sheet ws newKeys table).subscribeMsgs = 0)
    ∧ (viewsOf k table = [ws] → k ∉ newKeys →
        lookupKey k (update_subscriptions_for_sheet ws newKeys table).table = none
        ∧ List.count k (update_subscriptions_for_sheet ws newKeys table).unsubscribeMsgs = 1)
    ∧ (ws ∈ viewsOf k table → k ∉ newKeys → (∃ v ∈ viewsOf k table, v ≠ ws) →
        viewsOf k (update_subscriptions_for_sheet ws newKeys table).table
            = (viewsOf k table).erase ws
        ∧ List.count k (update_subscriptions_for_sheet ws newKeys table).unsubscribeMsgs = 0
        ∧ List.count k (update_subscriptions_for_sheet ws newKeys table).subscribeMsgs = 0) := by
  have hchar := update_lookup_char ws newKeys table k hnd
  have hsubc := update_subs_count ws newKeys table k
  have hunsc := update_unsubs_count ws newKeys table k hnd
  refine ⟨hsubc, ?_, ?_, ?_⟩
  · intro hin hsome
    cases h : lookupKey k table with
    | none => exact absurd h hsome
    | some r =>
      rw [h] at hchar hunsc
      dsimp only at hchar hunsc
      rw [if_pos hin] at hchar
      constructor
      · rw [show viewsOf k (update_subscriptions_for_sheet ws newKeys table).table
              = (if ws ∈ r.worksheets then r.worksheets else r.worksheets ++ [ws]) by
            simp [viewsOf, hchar]]
        simp [viewsOf, h]
      · rw [hsubc]
        simp [h]
  · intro hv hout
    cases h : lookupKey k table with
    | none =>
      rw [viewsOf, h] at hv
      simp at hv
    | some r =>
      have hr : r.worksheets = [ws] := by
        rw [viewsOf, h] at hv
        exact hv
      rw [h] at hchar hunsc
      dsimp only at hchar hunsc
      rw [if_neg hout] at hchar
      rw [hr] at hchar hunsc
      constructor
      · rw [hchar]
        simp
      · rw [hunsc]
        simp [hout]
  · intro hw hout hex
    cases h : lookupKey k table with
    | none =>
      rw [viewsOf, h] at hw
      simp at hw
    | some r =>
      rw [viewsOf, h] at hw hex
      dsimp only at hw hex
      obtain ⟨v, hvmem, hvne⟩ := hex
      have herase : r.worksheets.erase ws ≠ [] := by
        intro hnil
        rcases erase_eq_nil_cases r.worksheets ws hnil with h0 | h1
        · rw [h0] at hvmem
          simp at hvmem
        · rw [h1] at hvmem
          simp at hvmem
          exact hvne hvmem
      rw [h] at hchar hunsc
      dsimp only at hchar hunsc
      rw [if_neg hout, if_pos hw, if_neg herase] at hchar
      refine ⟨?_, ?_, ?_⟩
      · rw [show viewsOf k (update_subscriptions_for_sheet ws newKeys table).table
              = r.worksheets.erase ws by simp [viewsOf, hchar]]
        simp [viewsOf, h]
      · rw [hunsc]
        simp [hw, hout, herase]
      · rw [hsubc]
        simp [h]

/-- Witness for C1, instantiating all four parts: worksheet `"B"` joining the
key held by `"A"`; `"A"` dropping its only key; `"B"` dropping one of two
references. -/
theorem claim_C1_refcounted_emission_witness :
    (keysOf tabA).Nodup
    ∧ List.count kW (update_subscriptions_for_sheet "B" [kW] tabA).subscribeMsgs
        = (if kW ∈ [kW] ∧ lookupKey kW tabA = none then 1 else 0)
    ∧ (viewsOf kW (update_subscriptions_for_sheet "B" [kW] tabA).table
        = (if "B" ∈ viewsOf kW tabA then viewsOf kW tabA else viewsOf kW tabA ++ ["B"])
       ∧ List.count kW (update_subscriptions_for_sheet "B" [kW] tabA).subscribeMsgs = 0)
    ∧ (lookupKey kW (update_subscriptions_for_sheet "A" [] tabA).table = none
       ∧ List.count kW (update_subscriptions_for_sheet "A" [] tabA).unsubscribeMsgs = 1)
    ∧ (viewsOf kW (update_subscriptions_for_sheet "B" [] tabAB).table
          = (viewsOf kW tabAB).erase "B"
       ∧ List.count kW (update_subscriptions_for_sheet "B" [] tabAB).unsubscribeMsgs = 0
       ∧ List.count kW (update_subscriptions_for_sheet "B" [] tabAB).subscribeMsgs = 0) :=
  ⟨by decide,
   (claim_C1_refcounted_emission "B" [kW] tabA kW (by decide)).1,
   (claim_C1_refcounted_emission "B" [kW] tabA kW (by decide)).2.1
     (by decide) (by decide),
   (claim_C1_refcounted_emission "A" [] tabA kW (by decide)).2.2.1
     (by decide) (by decide),
   (claim_C1_refcounted_emission "B" [] tabAB kW (by decide)).2.2.2
     (by decide) (by decide) (by decide)⟩

/-- Claim C2: global-table invariant.  Reconciling any worksheet preserves the
property that every stored record is referenced by at least one view (records
whose last reference goes away are deleted within the same call), and the
empty table produced by the session reset of `init_subscriptions` satisfies it
trivially. -/
theorem claim_C2_table_invariant (ws : String) (newKeys : List SubKey)
    (table : SubTable) (h : tableWsNonempty table) :
    tableWsNonempty (update_subscriptions_for_sheet ws newKeys table).table
    ∧ tableWsNonempty ([] : SubTable) := by
  constructor
  · intro p hp
    exact dropPhase_worksheets_nonempty ws newKeys _
      (mergePhase_worksheets_nonempty ws newKeys table h) p hp
  · intro p hp
    simp at hp

/-- Witness for C2 on a concrete one-record table. -/
theorem claim_C2_table_invariant_witness :
    tableWsNonempty tabA
    ∧ tableWsNonempty (update_subscriptions_for_sheet "A" [] tabA).table
    ∧ tableWsNonempty ([] : SubTable) :=
  ⟨by decide, claim_C2_table_invariant "A" [] tabA (by decide)⟩

/-- Claim C3: flap filter.  Within one reconcile pass the sent unsubscribe
batch never shares a key with the subscribe batch, and a key that this view
drops while another view still references it produces neither an unsubscribe
nor a subscribe and stays in the table. -/
theorem claim_C3_flap_filter (ws : String) (newKeys : List SubKey)
    (table : SubTable) (k : SubKey) (hnd : (keysOf table).Nodup) :
    List.Disjoint (update_subscriptions_for_sheet ws newKeys table).unsubscribeMsgs
      (update_subscriptions_for_sheet ws newKeys table).subscribeMsgs
    ∧ (ws ∈ viewsOf k table → k ∉ newKeys → (∃ v ∈ viewsOf k table, v ≠ ws) →
        k ∉ (update_subscriptions_for_sheet ws newKeys table).unsubscribeMsgs
        ∧ k ∉ (update_subscriptions_for_sheet ws newKeys table).subscribeMsgs
        ∧ lookupKey k (update_subscriptions_for_sheet ws newKeys table).table ≠ none) := by
  constructor
  · intro a ha hb
    rw [update_unsubs_eq_raw] at ha
    exact (dropPhase_unsubs_mem ws newKeys _ a ha).2
      (mergePhase_subMsgs_subset ws newKeys table a hb)
  · intro hw hout hex
    cases h : lookupKey k table with
    | none =>
      rw [viewsOf, h] at hw
      simp at hw
    | some r =>
      rw [viewsOf, h] at hw hex
      dsimp only at hw hex
      obtain ⟨v, hvmem, hvne⟩ := hex
      have herase : r.worksheets.erase ws ≠ [] := by
        intro hnil
        rcases erase_eq_nil_cases r.worksheets ws hnil with h0 | h1
        · rw [h0] at hvmem
          simp at hvmem
        · rw [h1] at hvmem
          simp at hvmem
          exact hvne hvmem
      have hchar := update_lookup_char ws newKeys table k hnd
      have hsubc := update_subs_count ws newKeys table k
      have hunsc := update_unsubs_count ws newKeys table k hnd
      rw [h] at hchar hunsc
      dsimp only at hchar hunsc
      rw [if_neg hout, if_pos hw, if_neg herase] at hchar
      refine ⟨?_, ?_, ?_⟩
      · rw [← List.count_eq_zero]
        rw [hunsc]
        simp [hw, hout, herase]
      · rw [← List.count_eq_zero]
        rw [hsubc]
        simp [h]
      · rw [hchar]
        simp

/-- Witness for C3: `"B"` drops the key while `"A"` still references it. -/
theorem claim_C3_flap_filter_witness :
    (keysOf tabAB).Nodup
    ∧ List.Disjoint (update_subscriptions_for_sheet "B" [] tabAB).unsubscribeMsgs
        (update_subscriptions_for_sheet "B" [] tabAB).subscribeMsgs
    ∧ (kW ∉ (update_subscriptions_for_sheet "B" [] tabAB).unsubscribeMsgs
       ∧ kW ∉ (update_subscriptions_for_sheet "B" [] tabAB).subscribeMsgs
       ∧ lookupKey kW (update_subscriptions_for_sheet "B" [] tabAB).table ≠ none) :=
  ⟨by decide,
   (claim_C3_flap_filter "B" [] tabAB kW (by decide)).1,
   (claim_C3_flap_filter "B" [] tabAB kW (by decide)).2
     (by decide) (by decide) (by decide)⟩

/-- Claim C8: reconciliation frame property.  A reconcile call for worksheet
`ws` never changes whether any other view `v` references any key: membership
of `v ≠ ws` in a key's referencing-view list is exactly preserved. -/
theorem claim_C8_frame (ws : String) (newKeys : List SubKey) (table : SubTable)
    (k : SubKey) (v : String) (hnd : (keysOf table).Nodup) (hv : v ≠ ws) :
    (v ∈ viewsOf k (update_subscriptions_for_sheet ws newKeys table).table
      ↔ v ∈ viewsOf k table) := by
  have hchar := update_lookup_char ws newKeys table k hnd
  cases h : lookupKey k table with
  | none =>
    rw [h] at hchar
    dsimp only at hchar
    by_cases hin : k ∈ newKeys
    · rw [if_pos hin] at hchar
      rw [viewsOf, hchar, viewsOf, h]
      simp [hv]
    · rw [if_neg hin] at hchar
      rw [viewsOf, hchar, viewsOf, h]
  | some r =>
    rw [h] at hchar
    dsimp only at hchar
    by_cases hin : k ∈ newKeys
    · rw [if_pos hin] at hchar
      rw [viewsOf, hchar, viewsOf, h]
      by_cases hw : ws ∈ r.worksheets
      · simp [hw]
      · simp [hw, hv]
    · rw [if_neg hin] at hchar
      by_cases hw : ws ∈ r.worksheets
      · rw [if_pos hw] at hchar
        by_cases herase : r.worksheets.erase ws = []
        · rw [if_pos herase] at hchar
          rw [viewsOf, hchar, viewsOf, h]
          rcases erase_eq_nil_cases r.worksheets ws herase with h0 | h1
          · simp [h0]
          · simp [h1, hv]
        · rw [if_neg herase] at hchar
          rw [viewsOf, hchar, viewsOf, h]
          simpa using List.mem_erase_of_ne hv
      · rw [if_neg hw] at hchar
        rw [viewsOf, hchar, viewsOf, h]

/-- Witness for C8: reconciling `"B"` leaves `"A"`'s reference untouched. -/
theorem claim_C8_frame_witness :
    (keysOf tabAB).Nodup
    ∧ "A" ≠ "B"
    ∧ ("A" ∈ viewsOf kW (update_subscriptions_for_sheet "B" [] tabAB).table
        ↔ "A" ∈ viewsOf kW tabAB) :=
  ⟨by decide, by decide,
   claim_C8_frame "B" [] tabAB kW "A" (by decide) (by decide)⟩

/-- Claim C10: duplicate-free referencing-view lists.  Reconciliation
preserves table well-formedness — distinct keys and no view listed twice in
any record (a view is appended only when absent) — and a newly created record
carries exactly the one requesting view.  Hence a single removal fully
dereferences a view and the list length counts distinct views. -/
theorem claim_C10_no_duplicate_views (ws : String) (newKeys : List SubKey)
    (table : SubTable) (k : SubKey) (h : tableWF table) :
    tableWF (update_subscriptions_for_sheet ws newKeys table).table
    ∧ (lookupKey k table = none → k ∈ newKeys →
        lookupKey k (update_subscriptions_for_sheet ws newKeys table).table
          = some ⟨k, [ws]⟩) := by
  obtain ⟨hkeys, hws⟩ := h
  constructor
  · constructor
    · exact (dropPhase_keys_sublist ws newKeys _).nodup
        (mergePhase_keys_nodup ws newKeys table hkeys)
    · intro p hp
      exact dropPhase_worksheets_nodup ws newKeys _
        (mergePhase_worksheets_nodup ws newKeys table hws) p hp
  · intro hnone hin
    have hchar := update_lookup_char ws newKeys table k hkeys
    rw [hnone] at hchar
    dsimp only at hchar
    rw [if_pos hin] at hchar
    exact hchar

/-- Witness for C10: first insertion of a key creates a record referencing
exactly the requesting worksheet. -/
theorem claim_C10_no_duplicate_views_witness :
    tableWF ([] : SubTable)
    ∧ tableWF (update_subscriptions_for_sheet "A" [kW] []).table
    ∧ lookupKey kW (update_subscriptions_for_sheet "A" [kW] []).table
        = some ⟨kW, ["A"]⟩ :=
  ⟨by decide,
   (claim_C10_no_duplicate_views "A" [kW] [] kW (by decide)).1,
   (claim_C10_no_duplicate_views "A" [kW] [] kW (by decide)).2
     (by decide) (by decide)⟩

/-! ## Claim theorems: configuration validation (C4) -/

/-- Counterexample to C4 as stated: a configuration with TWO identifier
fields set (`figi` and `cusip`) — which fails the claim's "exactly one
identifier" validation — is nonetheless accepted by `is_valid_config`, and
the reconcile call proceeds and emits a subscribe message instead of aborting
with no message. -/
theorem claim_C4_counterexample :
    (paramStripped paramsTwoIds "figi" ≠ "" ∧ paramStripped paramsTwoIds "cusip" ≠ "")
    ∧ is_valid_config paramsTwoIds = (true, some "figi")
    ∧ (update_subscriptions_for_sheet_full figiNoData "Sheet1" paramsTwoIds
        [rowBid] []).subscribeMsgs
      = [⟨"ID1", 1000, "price", "bid", "Y"⟩] := by decide

/-- Claim C4 (amended): `is_valid_config` accepts a configuration exactly
when AT LEAST one identifier field among figi/cusip/isin is present and
non-empty (the first such key, in that order, is selected) and `side`,
`quantity`, `rfq_label`, `ats` are all present and non-empty; and whenever
validation fails, the reconcile call aborts with no partial effect: the
table is unchanged and no subscribe or unsubscribe message is produced. -/
theorem claim_C4_config_atomicity (d : FigiData) (ws : String)
    (params : InputParams) (rows : List RowCells) (table : SubTable) :
    ((is_valid_config params).1 = true ↔
      ((paramStripped params "figi" ≠ "" ∨ paramStripped params "cusip" ≠ ""
          ∨ paramStripped params "isin" ≠ "")
        ∧ paramStripped params "side" ≠ "" ∧ paramStripped params "quantity" ≠ ""
        ∧ paramStripped params "rfq_label" ≠ "" ∧ paramStripped params "ats" ≠ ""))
    ∧ ((is_valid_config params).1 = false →
        update_subscriptions_for_sheet_full d ws params rows table
          = ⟨table, [], []⟩) := by
  constructor
  · constructor
    · intro hv
      unfold is_valid_config at hv
      cases hsel : selectIdentifierKey params with
      | none =>
        rw [hsel] at hv
        simp at hv
      | some idk =>
        rw [hsel] at hv
        dsimp only at hv
        by_cases hrest : paramStripped params "side" ≠ ""
            ∧ paramStripped params "quantity" ≠ ""
            ∧ paramStripped params "rfq_label" ≠ ""
            ∧ paramStripped params "ats" ≠ ""
        · refine ⟨?_, hrest.1, hrest.2.1, hrest.2.2.1, hrest.2.2.2⟩
          unfold selectIdentifierKey at hsel
          by_cases h1 : paramStripped params "figi" ≠ ""
          · exact Or.inl h1
          · by_cases h2 : paramStripped params "cusip" ≠ ""
            · exact Or.inr (Or.inl h2)
            · by_cases h3 : paramStripped params "isin" ≠ ""
              · exact Or.inr (Or.inr h3)
              · rw [if_neg h1, if_neg h2, if_neg h3] at hsel
                simp at hsel
        · rw [if_neg hrest] at hv
          simp at hv
    · intro hcond
      obtain ⟨hid, hs, hq, hr, ha⟩ := hcond
      unfold is_valid_config
      have hsel : ∃ idk, selectIdentifierKey params = some idk := by
        unfold selectIdentifierKey
        by_cases h1 : paramStripped params "figi" ≠ ""
        · exact ⟨"figi", by rw [if_pos h1]⟩
        · by_cases h2 : paramStripped params "cusip" ≠ ""
          · exact ⟨"cusip", by rw [if_neg h1, if_pos h2]⟩
          · by_cases h3 : paramStripped params "isin" ≠ ""
            · exact ⟨"isin", by rw [if_neg h1, if_neg h2, if_pos h3]⟩
            · rcases hid with h | h | h
              · exact absurd h h1
              · exact absurd h h2
              · exact absurd h h3
      obtain ⟨idk, hsel⟩ := hsel
      rw [hsel]
      dsimp only
      rw [if_pos ⟨hs, hq, hr, ha⟩]
  · intro hf
    have hv : is_valid_config params = (false, (is_valid_config params).2) := by
      rcases h : is_valid_config params with ⟨b, o⟩
      rw [h] at hf
      simp at hf
      rw [hf]
    unfold update_subscriptions_for_sheet_full
    rw [hv]

/-- Witness for C4 (amended): a configuration with no identifier is rejected
and the reconcile call leaves the table untouched and sends nothing. -/
theorem claim_C4_config_atomicity_witness :
    (is_valid_config paramsInvalid).1 = false
    ∧ update_subscriptions_for_sheet_full figiNoData "Sheet1" paramsInvalid
        [rowBid] tabA
      = ⟨tabA, [], []⟩ :=
  ⟨by decide,
   (claim_C4_config_atomicity figiNoData "Sheet1" paramsInvalid [rowBid] tabA).2
     (by decide)⟩

/-! ## Quantity-normalizer lemmas (C5) -/

theorem minBySizeKey_mem (v : Int) (l : List Int) (b : Int) :
    minBySizeKey v l b = b ∨ minBySizeKey v l b ∈ l := by
  induction l generalizing b with
  | nil => left; rfl
  | cons x t ih =>
    have hstep : minBySizeKey v (x :: t) b
        = minBySizeKey v t
            (if (x - v).natAbs < (b - v).natAbs ∨
                ((x - v).natAbs = (b - v).natAbs ∧ x < b) then x else b) := rfl
    rw [hstep]
    by_cases hc : (x - v).natAbs < (b - v).natAbs ∨
        ((x - v).natAbs = (b - v).natAbs ∧ x < b)
    · rw [if_pos hc]
      rcases ih x with h | h
      · right
        rw [h]
        exact List.mem_cons_self _ _
      · right
        exact List.mem_cons_of_mem _ h
    · rw [if_neg hc]
      rcases ih b with h | h
      · left
        exact h
      · right
        exact List.mem_cons_of_mem _ h

theorem minBySizeKey_le (v : Int) (l : List Int) (b : Int) :
    sizeKeyLE v (minBySizeKey v l b) b
    ∧ ∀ x ∈ l, sizeKeyLE v (minBySizeKey v l b) x := by
  induction l generalizing b with
  | nil =>
    constructor
    · right
      exact ⟨rfl, le_rfl⟩
    · intro x hx
      simp at hx
  | cons x t ih =>
    have hstep : minBySizeKey v (x :: t) b
        = minBySizeKey v t
            (if (x - v).natAbs < (b - v).natAbs ∨
                ((x - v).natAbs = (b - v).natAbs ∧ x < b) then x else b) := rfl
    rw [hstep]
    by_cases hc : (x - v).natAbs < (b - v).natAbs ∨
        ((x - v).natAbs = (b - v).natAbs ∧ x < b)
    · rw [if_pos hc]
      obtain ⟨h1, h2⟩ := ih x
      constructor
      · unfold sizeKeyLE at h1 ⊢
        omega
      · intro y hy
        rcases List.mem_cons.mp hy with hh | hh
        · subst hh
          exact h1
        · exact h2 y hh
    · rw [if_neg hc]
      obtain ⟨h1, h2⟩ := ih b
      constructor
      · exact h1
      · intro y hy
        rcases List.mem_cons.mp hy with hh | hh
        · subst hh
          unfold sizeKeyLE at h1 ⊢
          omega
        · exact h2 y hh

theorem closestAllowedSize_spec (v : Int) :
    closestAllowedSize v ∈ ALLOWED_SIZES
    ∧ ∀ x ∈ ALLOWED_SIZES, sizeKeyLE v (closestAllowedSize v) x := by
  constructor
  · rcases minBySizeKey_mem v ALLOWED_SIZES 1000 with h | h
    · rw [closestAllowedSize, h]
      decide
    · rw [closestAllowedSize]
      exact h
  · intro x hx
    exact (minBySizeKey_le v ALLOWED_SIZES 1000).2 x hx

theorem coerceToWhole_dist (q : ℚ) : |q - (coerceToWhole q : ℚ)| ≤ 1/2 := by
  unfold coerceToWhole
  by_cases hden : q.den = 1
  · rw [if_pos hden]
    have hq : (q.num : ℚ) = q := by
      have h := Rat.num_div_den q
      rw [hden] at h
      simpa using h
    rw [hq]
    simp
  · rw [if_neg hden]
    unfold roundHalfEven
    have h0 : (0 : ℚ) ≤ q - ⌊q⌋ := by
      have := Int.floor_le q
      linarith
    have h1 : q - (⌊q⌋ : ℚ) < 1 := by
      have := Int.lt_floor_add_one q
      linarith
    by_cases hlt : q - (⌊q⌋ : ℚ) < 1/2
    · rw [if_pos hlt, abs_le]
      constructor <;> linarith
    · rw [if_neg hlt]
      by_cases hgt : 1/2 < q - (⌊q⌋ : ℚ)
      · rw [if_pos hgt]
        push_cast
        rw [abs_le]
        constructor <;> linarith
      · rw [if_neg hgt]
        have heq : q - (⌊q⌋ : ℚ) = 1/2 := le_antisymm (not_lt.mp hgt) (not_lt.mp hlt)
        by_cases hdvd : 2 ∣ ⌊q⌋
        · rw [if_pos hdvd, abs_le]
          constructor <;> linarith
        · rw [if_neg hdvd]
          push_cast
          rw [abs_le]
          constructor <;> linarith

theorem coerceToWhole_nearest (q : ℚ) (z : Int) :
    |q - (coerceToWhole q : ℚ)| ≤ |q - (z : ℚ)| := by
  by_cases hz : z = coerceToWhole q
  · rw [hz]
  · have hd := coerceToWhole_dist q
    have hne : coerceToWhole q - z ≠ 0 := by
      intro hh
      exact hz (by omega)
    have h1 : (1 : Int) ≤ |coerceToWhole q - z| := Int.one_le_abs hne
    have h2 : (1 : ℚ) ≤ |(coerceToWhole q : ℚ) - (z : ℚ)| := by
      exact_mod_cast h1
    have htri : |(coerceToWhole q : ℚ) - z| ≤ |(coerceToWhole q : ℚ) - q| + |q - z| :=
      abs_sub_le _ q _
    have hcomm : |(coerceToWhole q : ℚ) - q| = |q - (coerceToWhole q : ℚ)| :=
      abs_sub_comm _ _
    linarith

/-- Claim C5: quantity normalizer.  A non-numeric input is invalid (`none`).
A numeric input is first coerced to a whole number that is nearest to it
among all integers; if that number belongs to the fixed allowed-size set it
is returned unchanged, otherwise the member of the set nearest to it by
absolute distance is returned, with ties broken toward the smaller member.
Concretely, 260000 normalizes to 250000 and 999999 to 1000000. -/
theorem claim_C5_quantity_normalizer (q : ℚ) :
    get_valid_quantity CellNum.nonNumeric = none
    ∧ (∀ z : Int, |q - (coerceToWhole q : ℚ)| ≤ |q - (z : ℚ)|)
    ∧ (coerceToWhole q ∈ ALLOWED_SIZES →
        get_valid_quantity (CellNum.numeric q) = some (coerceToWhole q))
    ∧ (coerceToWhole q ∉ ALLOWED_SIZES →
        get_valid_quantity (CellNum.numeric q)
            = some (closestAllowedSize (coerceToWhole q))
        ∧ closestAllowedSize (coerceToWhole q) ∈ ALLOWED_SIZES
        ∧ ∀ x ∈ ALLOWED_SIZES,
            ((closestAllowedSize (coerceToWhole q) - coerceToWhole q).natAbs
                ≤ (x - coerceToWhole q).natAbs
             ∧ ((closestAllowedSize (coerceToWhole q) - coerceToWhole q).natAbs
                  = (x - coerceToWhole q).natAbs →
                closestAllowedSize (coerceToWhole q) ≤ x)))
    ∧ get_valid_quantity (CellNum.numeric 260000) = some 250000
    ∧ get_valid_quantity (CellNum.numeric 999999) = some 1000000 := by
  refine ⟨rfl, fun z => coerceToWhole_nearest q z, ?_, ?_, by decide, by decide⟩
  · intro hmem
    simp [get_valid_quantity, hmem]
  · intro hmem
    refine ⟨by simp [get_valid_quantity, hmem],
      (closestAllowedSize_spec (coerceToWhole q)).1, ?_⟩
    intro x hx
    have hle := (closestAllowedSize_spec (coerceToWhole q)).2 x hx
    unfold sizeKeyLE at hle
    constructor
    · omega
    · intro heq
      omega

/-- Witness for C5: concrete evaluations, including the snapped value for an
input outside the allowed set. -/
theorem claim_C5_quantity_normalizer_witness :
    get_valid_quantity CellNum.nonNumeric = none
    ∧ get_valid_quantity (CellNum.numeric 260000) = some 250000
    ∧ get_valid_quantity (CellNum.numeric 999999) = some 1000000
    ∧ get_valid_quantity (CellNum.numeric 260000)
        = some (closestAllowedSize (coerceToWhole 260000)) :=
  ⟨(claim_C5_quantity_normalizer 0).1,
   (claim_C5_quantity_normalizer 0).2.2.2.2.1,
   (claim_C5_quantity_normalizer 0).2.2.2.2.2,
   ((claim_C5_quantity_normalizer 260000).2.2.2.1 (by decide)).1⟩

/-! ## Claim theorems: reversal rule (C6) -/

/-- Claim C6: array reversal in the flush path.  For an array that is not its
own reverse, the written array equals the input reversed exactly when the
entry is price-typed with side `offer`, or non-price-typed with side `bid`;
in particular (`price`, `offer`) and (`ytm`, `bid`) reverse while
(`price`, `bid`) does not. -/
theorem claim_C6_reversal_rule (inf_type side : String) (arr : List ℚ)
    (h : arr.reverse ≠ arr) :
    (applyReversalRule inf_type side arr = arr.reverse ↔
      ((inf_type = "price" ∧ side = "offer") ∨ (inf_type ≠ "price" ∧ side = "bid")))
    ∧ applyReversalRule "price" "offer" arr = arr.reverse
    ∧ applyReversalRule "ytm" "bid" arr = arr.reverse
    ∧ applyReversalRule "price" "bid" arr = arr := by
  refine ⟨?_, by simp [applyReversalRule], by simp [applyReversalRule],
    by simp [applyReversalRule]⟩
  unfold applyReversalRule
  by_cases hc : (inf_type = "price" ∧ side = "offer")
      ∨ (inf_type ≠ "price" ∧ side = "bid")
  · simp [hc]
  · simp only [if_neg hc]
    constructor
    · intro hh
      exact absurd hh.symm h
    · intro hh
      exact absurd hh hc

/-- Witness for C6 on the two-element array `[1, 2]`. -/
theorem claim_C6_reversal_rule_witness :
    (([1, 2] : List ℚ).reverse ≠ [1, 2])
    ∧ ((applyReversalRule "spread" "offer" [1, 2] = ([1, 2] : List ℚ).reverse ↔
          (("spread" = "price" ∧ "offer" = "offer")
            ∨ ("spread" ≠ "price" ∧ "offer" = "bid")))
        ∧ applyReversalRule "price" "offer" [1, 2] = ([1, 2] : List ℚ).reverse
        ∧ applyReversalRule "ytm" "bid" [1, 2] = ([1, 2] : List ℚ).reverse
        ∧ applyReversalRule "price" "bid" [1, 2] = [1, 2]) :=
  ⟨by decide, claim_C6_reversal_rule "spread" "offer" [1, 2] (by decide)⟩

/-! ## Inference-cache lemmas and claim theorems (C7) -/

theorem lookupInf_append (k : InferenceKey) (t1 t2 : InferenceCache) :
    lookupInf k (t1 ++ t2) =
      match lookupInf k t1 with
      | some e => some e
      | none => lookupInf k t2 := by
  induction t1 with
  | nil => simp [lookupInf]
  | cons p rest ih =>
    obtain ⟨k1, e1⟩ := p
    by_cases h : k1 = k
    · simp [lookupInf, h]
    · simp [lookupInf, h, ih]

theorem lookupInf_setInf_self (k : InferenceKey) (e : InferenceEntry)
    (t : InferenceCache) (h : lookupInf k t ≠ none) :
    lookupInf k (setInf k e t) = some e := by
  induction t with
  | nil => simp [lookupInf] at h
  | cons p rest ih =>
    obtain ⟨k2, e2⟩ := p
    by_cases h2 : k2 = k
    · simp [setInf, lookupInf, h2]
    · simp only [lookupInf, if_neg h2] at h
      simp [setInf, lookupInf, h2, ih h]

theorem getSlot_setSlot (e : InferenceEntry) (t : String) (it : InferenceItem) :
    getSlot (setSlot e t it) t = some it := by
  unfold getSlot setSlot
  by_cases h1 : t = "price"
  · simp [h1]
  · by_cases h2 : t = "spread" <;> simp [h1, h2]

/-- Counterexample to C7 as stated: an inference item with TWO populated
arrays (`price` and `spread`) and a non-integral quantity 5.5 — which fails
the claim's "exactly one populated array" and "integer quantity" validation —
is nonetheless accepted: the intake stores it in the cache under a key whose
type is the FIRST populated candidate (`price`) and whose quantity is the
truncation 5, instead of skipping it. -/
theorem claim_C7_counterexample :
    (itemTwoArrays.price ≠ [] ∧ itemTwoArrays.spread ≠ [])
    ∧ (mkRat 11 2).den ≠ 1
    ∧ itemTwoArrays.quantity = QtyField.numeric (mkRat 11 2)
    ∧ itemKey itemTwoArrays = some ⟨"F", "bid", 5, "price", "Y"⟩
    ∧ processInferenceItem [] itemTwoArrays
        = [(⟨"F", "bid", 5, "price", "Y"⟩, ⟨some itemTwoArrays, none, none⟩)] := by
  decide

/-- Claim C7 (amended): inference-message intake.  An item updates the cache
exactly when its validation key exists — non-empty canonical id, non-empty
side, a quantity coercible to an integer (truncating), AT LEAST one populated
array among price/spread/ytm (the first of which, in that order, fixes the
item's type), and an ats flag in {Y, N}.  A valid item is stored under its
key in the slot of its type; an invalid item leaves the cache untouched and
does not affect the processing of the other items of the same message. -/
theorem claim_C7_inference_intake (cache : InferenceCache) (it : InferenceItem)
    (k : InferenceKey) (xs ys : List InferenceItem) :
    (itemKey it = none → processInferenceItem cache it = cache)
    ∧ (itemKey it = some k →
        Option.map (fun e => getSlot e k.inf_type)
            (lookupInf k (processInferenceItem cache it)) = some (some it))
    ∧ (itemKey it = none →
        handle_received_message (xs ++ it :: ys) cache
          = handle_received_message (xs ++ ys) cache) := by
  refine ⟨?_, ?_, ?_⟩
  · intro h
    unfold processInferenceItem
    rw [h]
  · intro h
    unfold processInferenceItem
    rw [h]
    dsimp only
    unfold updateCache
    cases hc : lookupInf k cache with
    | some e =>
      dsimp only
      rw [lookupInf_setInf_self k _ cache (by simp [hc])]
      simp [getSlot_setSlot]
    | none =>
      dsimp only
      rw [lookupInf_append, hc]
      simp [lookupInf, getSlot_setSlot]
  · intro h
    unfold handle_received_message
    rw [List.foldl_append, List.foldl_append, List.foldl_cons]
    rw [show processInferenceItem (List.foldl processInferenceItem cache xs) it
          = List.foldl processInferenceItem cache xs by
        unfold processInferenceItem
        rw [h]]

/-- Witness for C7 (amended): a valid `ytm` item is stored under its key; an
item with empty canonical id is skipped and does not disturb its
neighbours. -/
theorem claim_C7_inference_intake_witness :
    itemKey itemBad = none
    ∧ processInferenceItem [] itemBad = []
    ∧ itemKey itemValid = some ⟨"F", "bid", 1000, "ytm", "N"⟩
    ∧ Option.map (fun e => getSlot e "ytm")
        (lookupInf ⟨"F", "bid", 1000, "ytm", "N"⟩ (processInferenceItem [] itemValid))
      = some (some itemValid)
    ∧ handle_received_message [itemBad, itemValid] []
        = handle_received_message [itemValid] [] :=
  ⟨by decide,
   (claim_C7_inference_intake [] itemBad ⟨"F", "bid", 1000, "ytm", "N"⟩ [] []).1
     (by decide),
   by decide,
   (claim_C7_inference_intake [] itemValid ⟨"F", "bid", 1000, "ytm", "N"⟩ [] []).2.1
     (by decide),
   (claim_C7_inference_intake [] itemBad ⟨"F", "bid", 1000, "ytm", "N"⟩ []
     [itemValid]).2.2 (by decide)⟩

/-! ## Connection-loop lemmas and claim theorem (C9) -/

theorem connectTrace_replicate_false (n : Nat) :
    connectTrace (List.replicate n false)
      = List.replicate n (ConnectionState.Disconnected, RECONNECT_DELAY_SECONDS) := by
  induction n with
  | zero => rfl
  | succ m ih => simp [List.replicate_succ, connectTrace, ih]

theorem connectFinalState_replicate_false (n : Nat) :
    connectFinalState (List.replicate n false) = ConnectionState.Connecting := by
  induction n with
  | zero => rfl
  | succ m ih => simpa [List.replicate_succ, connectFinalState] using ih

theorem connectTrace_no_givenUp (outcomes : List Bool) :
    ∀ p ∈ connectTrace outcomes, p.1 ≠ ConnectionState.GivenUp := by
  induction outcomes with
  | nil => simp [connectTrace]
  | cons ok rest ih =>
    cases ok with
    | true => simp [connectTrace]
    | false =>
      intro p hp
      rcases List.mem_cons.mp hp with hh | hh
      · subst hh
        simp
      · exact ih p hh

theorem connectFinalState_ne_givenUp (outcomes : List Bool) :
    connectFinalState outcomes ≠ ConnectionState.GivenUp := by
  induction outcomes with
  | nil => simp [connectFinalState]
  | cons ok rest ih =>
    cases ok with
    | true => simp [connectFinalState]
    | false => simpa [connectFinalState] using ih

theorem connectFinalState_replicate_false_then_true (n : Nat) :
    connectFinalState (List.replicate n false ++ [true])
      = ConnectionState.Connected := by
  induction n with
  | zero => rfl
  | succ m ih => simpa [List.replicate_succ, connectFinalState] using ih

theorem connectTrace_replicate_false_then_true (n : Nat) :
    connectTrace (List.replicate n false ++ [true])
      = List.replicate n (ConnectionState.Disconnected, RECONNECT_DELAY_SECONDS)
        ++ [(ConnectionState.Connected, 0)] := by
  induction n with
  | zero => rfl
  | succ m ih => simp [List.replicate_succ, connectTrace, ih]

/-- Claim C9: reconnect-forever.  For any number `n` of consecutive
connection failures the retry loop never reaches a terminal state: each
failure returns the state to `Disconnected` with the fixed 60-second delay
before the next attempt, the loop is again attempting (`Connecting`) after
consuming them all, a success after `n` failures yields `Connected`, and the
give-up state is unreachable on every outcome sequence — including after a
receive-loop failure, which re-enters the same retry loop. -/
theorem claim_C9_reconnect_forever (n : Nat) (outcomes : List Bool) :
    connectTrace (List.replicate n false)
        = List.replicate n (ConnectionState.Disconnected, RECONNECT_DELAY_SECONDS)
    ∧ connectFinalState (List.replicate n false) = ConnectionState.Connecting
    ∧ (∀ p ∈ connectTrace outcomes, p.1 ≠ ConnectionState.GivenUp)
    ∧ connectFinalState outcomes ≠ ConnectionState.GivenUp
    ∧ connectFinalState (List.replicate n false ++ [true]) = ConnectionState.Connected
    ∧ connectTrace (List.replicate n false ++ [true])
        = List.replicate n (ConnectionState.Disconnected, RECONNECT_DELAY_SECONDS)
          ++ [(ConnectionState.Connected, 0)]
    ∧ stateAfterReceiveFailure (List.replicate n false ++ [true])
        = ConnectionState.Connected :=
  ⟨connectTrace_replicate_false n,
   connectFinalState_replicate_false n,
   connectTrace_no_givenUp outcomes,
   connectFinalState_ne_givenUp outcomes,
   connectFinalState_replicate_false_then_true n,
   connectTrace_replicate_false_then_true n,
   connectFinalState_replicate_false_then_true n⟩

/-- Witness for C9 at three consecutive failures followed by a success. -/
theorem claim_C9_reconnect_forever_witness :
    connectTrace (List.replicate 3 false)
        = List.replicate 3 (ConnectionState.Disconnected, RECONNECT_DELAY_SECONDS)
    ∧ connectFinalState (List.replicate 3 false) = ConnectionState.Connecting
    ∧ connectFinalState (List.replicate 3 false ++ [true]) = ConnectionState.Connected
    ∧ stateAfterReceiveFailure (List.replicate 3 false ++ [true])
        = ConnectionState.Connected :=
  ⟨(claim_C9_reconnect_forever 3 []).1,
   (claim_C9_reconnect_forever 3 []).2.1,
   (claim_C9_reconnect_forever 3 []).2.2.2.2.1,
   (claim_C9_reconnect_forever 3 []).2.2.2.2.2.2⟩

end Pyxll
